import Mathlib

/-!
Verification of the classification-and-response core of the Streamlit
customer-support chatbot (`src/app.py`). The Python string routines
(`str.strip`, `str.lower`, `re.sub`, `str.splitlines`, `str.split`, the
`in` substring test) are embedded as executable functions on `List Char`,
restricted to the whitespace and line-break characters the code can meet
(the ASCII whitespace class plus the one-byte line-break characters of
`str.splitlines`). `parse_category` returns `Option String`: `none` models
the `IndexError` that `r.splitlines()[0]` raises when the normalized
response is empty. The external LLM call `mistral_chat` is modelled as a
function `String → Except Unit String`; `Except.error` models a raised
exception of any kind.
-/

/-- Whitespace characters recognised by the model: the characters matched
by the regex class backslash-s and stripped by `str.strip` that can occur
here (ASCII whitespace plus the common one-byte line-break characters). -/
def isSpace (c : Char) : Bool :=
  c.toNat = 32 || c.toNat = 9 || c.toNat = 10 || c.toNat = 11 || c.toNat = 12 ||
    c.toNat = 13 || c.toNat = 28 || c.toNat = 29 || c.toNat = 30 || c.toNat = 133

/-- Line boundaries of `str.splitlines` (one-byte characters). -/
def isLineBreak (c : Char) : Bool :=
  c.toNat = 10 || c.toNat = 11 || c.toNat = 12 || c.toNat = 13 ||
    c.toNat = 28 || c.toNat = 29 || c.toNat = 30 || c.toNat = 133

/-- Python `s.strip()`: drop leading and trailing whitespace. -/
def stripList (l : List Char) : List Char :=
  ((l.dropWhile isSpace).reverse.dropWhile isSpace).reverse

/-- Python `re.sub(backslash-s-plus, " ", s)`: replace every maximal run of
whitespace characters by a single space. -/
def collapseWS : List Char → List Char
  | [] => []
  | [c] => if isSpace c then [' '] else [c]
  | c :: d :: t =>
    if isSpace c then
      if isSpace d then collapseWS (d :: t)
      else ' ' :: collapseWS (d :: t)
    else c :: collapseWS (d :: t)

/-- `normalize_text` from `src/app.py`:
`re.sub(backslash-s-plus, " ", s.strip().lower())`. -/
def normalize_text (s : String) : String :=
  ⟨collapseWS ((stripList s.data).map Char.toLower)⟩

/-- Python `s.splitlines()` with an accumulator for the current line
(reversed). The empty string gives no lines; a final line break does not
open a further empty line; a CR immediately followed by LF is one break. -/
def splitlinesAux : List Char → List Char → List (List Char)
  | [], acc => if acc = [] then [] else [acc.reverse]
  | [c], acc => if isLineBreak c then [acc.reverse] else [(c :: acc).reverse]
  | c :: d :: t, acc =>
    if isLineBreak c then
      if c.toNat = 13 && d.toNat = 10 then acc.reverse :: splitlinesAux t []
      else acc.reverse :: splitlinesAux (d :: t) []
    else splitlinesAux (d :: t) (c :: acc)

/-- Python `s.split()` (no separator): whitespace-separated tokens, empty
tokens discarded. The accumulator holds the current token reversed. -/
def splitTokensAux : List Char → List Char → List (List Char)
  | [], acc => if acc = [] then [] else [acc.reverse]
  | c :: t, acc =>
    if isSpace c then
      if acc = [] then splitTokensAux t []
      else acc.reverse :: splitTokensAux t []
    else splitTokensAux t (c :: acc)

def splitTokens (l : List Char) : List (List Char) :=
  splitTokensAux l []

/-- Python `needle in hay` for strings: contiguous occurrence. -/
def listContains (hay needle : List Char) : Bool :=
  needle.isPrefixOf hay ||
    match hay with
    | [] => false
    | _ :: t => listContains t needle

/-- `needle` occurs contiguously inside `hay`. -/
def occursIn (needle hay : List Char) : Prop :=
  ∃ a b, hay = a ++ needle ++ b

/-- `ALLOWED_CATEGORIES` from `src/app.py`. -/
def ALLOWED_CATEGORIES : List String :=
  ["card arrival", "change pin", "exchange rate", "country support",
   "cancel transfer", "charge dispute", "customer service"]

/-- `GREETINGS` from `src/app.py` (a `set` in Python; membership only). -/
def GREETINGS : List String :=
  ["hi", "hello", "hey", "yo", "good morning", "good afternoon", "good evening"]

/-- `KB` from `src/app.py`. -/
def KB : List (String × String) :=
  [("card arrival", "Track delivery in Cards > Track delivery. Request replacement if overdue."),
   ("change pin", "Go to Cards > Manage card > Change PIN."),
   ("exchange rate", "Exchange rate depends on network rate plus bank fee. Tell me the currencies."),
   ("country support", "Most countries are supported. Tell me your destination."),
   ("cancel transfer", "If pending, cancel in Transfers > Activity."),
   ("charge dispute", "Open transaction > Dispute charge. Provide date, merchant, and reason."),
   ("customer service", "Tell me your issue and I will guide you.")]

/-- `KB.get(cat, KB["customer service"])` from the send handler. -/
def kbGet (cat : String) : String :=
  match KB.lookup cat with
  | some g => g
  | none => "Tell me your issue and I will guide you."

/-- `parse_category` from `src/app.py`. `none` models the `IndexError`
raised by `r.splitlines()[0]` when the normalized response is empty. -/
def parse_category (raw : String) : Option String :=
  let r := normalize_text raw
  match splitlinesAux r.data [] with
  | [] => none
  | l0 :: _ =>
    let first_line : String := ⟨stripList l0⟩
    if first_line ∈ ALLOWED_CATEGORIES then some first_line
    else
      match ALLOWED_CATEGORIES.find? (fun cat => listContains r.data cat.data) with
      | some cat => some cat
      | none => some "customer service"

/-- The classification prompt `CLASSIFY_PROMPT.format(q=inquiry)`: the raw
inquiry is interpolated between a fixed head and a fixed tail. -/
def classifyPromptFor (q : String) : String :=
  "\nYou are a bank customer service bot.\nClassify the bank inquiry into ONE category only:\ncard arrival\nchange pin\nexchange rate\ncountry support\ncancel transfer\ncharge dispute\ncustomer service\n\nReturn ONLY the category text. No explanations.\n\nInquiry: "
    ++ q ++ "\nCategory:\n"

/-- `classify_intent` from `src/app.py`. `svc` is the external
`mistral_chat` call; `Except.error` models any raised exception. The
`try` block covers both the call and `parse_category`, so a `none` from
`parse_category` (the `IndexError`) also falls back. -/
def classify_intent (svc : String → Except Unit String) (inquiry : String) : String :=
  let q := normalize_text inquiry
  if (splitTokens q.data).length ≤ 2 ∨ q ∈ GREETINGS then "customer service"
  else
    match svc (classifyPromptFor inquiry) with
    | Except.error _ => "customer service"
    | Except.ok raw =>
      match parse_category raw with
      | some c => c
      | none => "customer service"

/-- The composition prompt built in the send handler (an f-string around
the guidance and the inquiry). -/
def composePromptFor (guidance inquiry : String) : String :=
  "\nYou are a helpful bank support assistant.\nAnswer using ONLY the guidance below.\nKeep it short and clear.\n\nGuidance:\n"
    ++ guidance ++ "\n\nCustomer question:\n" ++ inquiry ++ "\n\nAnswer:\n"

/-- The composition step of the send handler: `mistral_chat(prompt).strip()`
with the raw guidance as the fallback on any exception. -/
def composeAnswer (svc : String → Except Unit String) (cat inquiry : String) : String :=
  let guidance := kbGet cat
  match svc (composePromptFor guidance inquiry) with
  | Except.ok a => ⟨stripList a.data⟩
  | Except.error _ => guidance

/-- One transcript entry of `st.session_state.chat_history`: the `cat` key
is present only on assistant turns. -/
structure Turn where
  role : String
  text : String
  cat : Option String
deriving DecidableEq, Repr

/-- The send handler of `src/app.py` (the `if send and msg.strip():`
block): on a submission whose stripped text is non-empty, classify,
compose, and append the user turn then the assistant turn; otherwise the
transcript is left untouched. -/
def sendHandler (svc : String → Except Unit String) (history : List Turn)
    (send : Bool) (msg : String) : List Turn :=
  if send = true ∧ (⟨stripList msg.data⟩ : String) ≠ "" then
    let inquiry : String := ⟨stripList msg.data⟩
    let cat := classify_intent svc inquiry
    let answer := composeAnswer svc cat inquiry
    history ++ [⟨"user", inquiry, none⟩, ⟨"assistant", answer, some cat⟩]
  else history

/-- The simpler matcher described by claim C10, written from the words of
the spec: exact match of the whole normalized response, else first allowed
category occurring as a substring, else the fallback. -/
def specSimpleMatch (raw : String) : String :=
  let r := normalize_text raw
  if r ∈ ALLOWED_CATEGORIES then r
  else
    match ALLOWED_CATEGORIES.find? (fun cat => listContains r.data cat.data) with
    | some cat => cat
    | none => "customer service"

/-- Normal form for `collapseWS`: every whitespace character is a plain
space and is not followed by another whitespace character. -/
def collapsed : List Char → Bool
  | [] => true
  | [c] => !(isSpace c) || (c = ' ')
  | c :: d :: t => (!(isSpace c) || (decide (c = ' ') && !(isSpace d))) && collapsed (d :: t)

/-! ### Character-level facts -/

theorem toNat_ofNat_valid (m : Nat) (h : Nat.isValidChar m) : (Char.ofNat m).toNat = m := by
  simp [Char.ofNat, h, Char.ofNatAux, Char.toNat, UInt32.toNat, BitVec.toNat_ofNatLt]

theorem toLower_toNat_of_upper (c : Char) (h : c.toNat ≥ 65 ∧ c.toNat ≤ 90) :
    (Char.toLower c).toNat = c.toNat + 32 := by
  have hv : Nat.isValidChar (c.toNat + 32) := by unfold Nat.isValidChar; omega
  have e1 : Char.toLower c = Char.ofNat (c.toNat + 32) := by unfold Char.toLower; simp [h]
  rw [e1, toNat_ofNat_valid _ hv]

theorem toLower_eq_self (c : Char) (h : ¬ (c.toNat ≥ 65 ∧ c.toNat ≤ 90)) :
    Char.toLower c = c := by
  unfold Char.toLower; simp [h]

theorem toLower_idem (c : Char) : Char.toLower (Char.toLower c) = Char.toLower c := by
  by_cases h : c.toNat ≥ 65 ∧ c.toNat ≤ 90
  · apply toLower_eq_self
    rw [toLower_toNat_of_upper c h]
    omega
  · rw [toLower_eq_self c h]
    exact toLower_eq_self c h

theorem isSpace_toLower (c : Char) : isSpace (Char.toLower c) = isSpace c := by
  by_cases h : c.toNat ≥ 65 ∧ c.toNat ≤ 90
  · have h1 := toLower_toNat_of_upper c h
    have e1 : isSpace (Char.toLower c) = false := by
      unfold isSpace
      rw [h1]
      simp only [Bool.or_eq_false_iff, decide_eq_false_iff_not]
      omega
    have e2 : isSpace c = false := by
      unfold isSpace
      simp only [Bool.or_eq_false_iff, decide_eq_false_iff_not]
      omega
    rw [e1, e2]
  · rw [toLower_eq_self c h]

theorem isSpace_of_isLineBreak (c : Char) (h : isLineBreak c = true) : isSpace c = true := by
  unfold isLineBreak at h
  unfold isSpace
  simp only [Bool.or_eq_true, decide_eq_true_eq] at h ⊢
  omega

/-! ### dropWhile and strip facts -/

theorem dropWhile_head?_false (p : Char → Bool) (l : List Char) (c : Char)
    (h : (l.dropWhile p).head? = some c) : p c = false := by
  induction l with
  | nil => simp at h
  | cons a t ih =>
    rw [List.dropWhile_cons] at h
    by_cases hp : p a
    · exact ih (by simpa [hp] using h)
    · simp [hp] at h
      subst h
      simpa using hp

theorem getLast?_of_dropWhile_ne_nil (p : Char → Bool) (l : List Char)
    (h : l.dropWhile p ≠ []) : (l.dropWhile p).getLast? = l.getLast? := by
  induction l with
  | nil => simp at h
  | cons a t ih =>
    by_cases hp : p a
    · rw [List.dropWhile_cons, if_pos hp] at h ⊢
      cases t with
      | nil => simp at h
      | cons b u =>
        rw [List.getLast?_cons_cons]
        exact ih h
    · rw [List.dropWhile_cons, if_neg hp]

theorem stripList_head?_false (l : List Char) (c : Char)
    (h : (stripList l).head? = some c) : isSpace c = false := by
  unfold stripList at h
  set m := l.dropWhile isSpace with hm
  have hne : (m.reverse.dropWhile isSpace) ≠ [] := by
    intro he
    rw [he] at h
    simp at h
  rw [List.head?_reverse, getLast?_of_dropWhile_ne_nil _ _ hne,
      List.getLast?_reverse] at h
  exact dropWhile_head?_false isSpace l c h

theorem stripList_getLast?_false (l : List Char) (c : Char)
    (h : (stripList l).getLast? = some c) : isSpace c = false := by
  unfold stripList at h
  rw [List.getLast?_reverse] at h
  exact dropWhile_head?_false isSpace _ c h

theorem stripList_eq_self (m : List Char)
    (h1 : ∀ c, m.head? = some c → isSpace c = false)
    (h2 : ∀ c, m.getLast? = some c → isSpace c = false) :
    stripList m = m := by
  cases m with
  | nil => rfl
  | cons a t =>
    unfold stripList
    have ha : isSpace a = false := h1 a rfl
    rw [List.dropWhile_cons, if_neg (by simp [ha])]
    have hrev : (a :: t).reverse.dropWhile isSpace = (a :: t).reverse := by
      cases hr : (a :: t).reverse with
      | nil => simp at hr
      | cons b u =>
        have hb : (a :: t).getLast? = some b := by
          rw [← List.head?_reverse]
          simp [hr]
        rw [List.dropWhile_cons, if_neg (by simp [h2 b hb])]
    rw [hrev, List.reverse_reverse]

/-! ### collapseWS facts -/

theorem collapseWS_ne_nil (l : List Char) (h : l ≠ []) : collapseWS l ≠ [] := by
  induction l using collapseWS.induct with
  | case1 => simp at h
  | case2 c hc => unfold collapseWS; simp [hc]
  | case3 c hnc => unfold collapseWS; simp [hnc]
  | case4 c d t hc hd ih =>
    unfold collapseWS
    rw [if_pos hc, if_pos hd]
    exact ih (by simp)
  | case5 c d t hc hnd ih =>
    unfold collapseWS
    rw [if_pos hc, if_neg hnd]
    simp
  | case6 c d t hnc ih =>
    unfold collapseWS
    rw [if_neg hnc]
    simp

theorem collapseWS_head? (l : List Char) (c : Char) (h : l.head? = some c)
    (hc : isSpace c = false) : (collapseWS l).head? = some c := by
  cases l with
  | nil => simp at h
  | cons a t =>
    simp at h
    subst h
    cases t with
    | nil => unfold collapseWS; simp [hc]
    | cons d u => unfold collapseWS; simp [hc]

theorem getLast?_cons_of_ne_nil {α : Type} (a : α) (t : List α) (h : t ≠ []) :
    (a :: t).getLast? = t.getLast? := by
  cases t with
  | nil => exact absurd rfl h
  | cons b u => rw [List.getLast?_cons_cons]

theorem collapseWS_getLast? (l : List Char) (c : Char) (h : l.getLast? = some c)
    (hc : isSpace c = false) : (collapseWS l).getLast? = some c := by
  induction l using collapseWS.induct with
  | case1 => simp at h
  | case2 a ha =>
    simp at h
    subst h
    simp [ha] at hc
  | case3 a hna =>
    simp at h
    subst h
    unfold collapseWS
    rw [if_neg hna]
    simp
  | case4 a d t ha hd ih =>
    unfold collapseWS
    rw [if_pos ha, if_pos hd]
    rw [List.getLast?_cons_cons] at h
    exact ih h
  | case5 a d t ha hnd ih =>
    unfold collapseWS
    rw [if_pos ha, if_neg hnd]
    rw [List.getLast?_cons_cons] at h
    rw [getLast?_cons_of_ne_nil _ _ (collapseWS_ne_nil (d :: t) (by simp))]
    exact ih h
  | case6 a d t hna ih =>
    unfold collapseWS
    rw [if_neg hna]
    rw [List.getLast?_cons_cons] at h
    rw [getLast?_cons_of_ne_nil _ _ (collapseWS_ne_nil (d :: t) (by simp))]
    exact ih h

theorem mem_collapseWS (l : List Char) (c : Char) (h : c ∈ collapseWS l) :
    c = ' ' ∨ (c ∈ l ∧ isSpace c = false) := by
  induction l using collapseWS.induct with
  | case1 => simp [collapseWS] at h
  | case2 a ha =>
    unfold collapseWS at h
    rw [if_pos ha] at h
    simp at h
    left
    exact h
  | case3 a hna =>
    unfold collapseWS at h
    rw [if_neg hna] at h
    simp at h
    subst h
    right
    exact ⟨by simp, by simpa using hna⟩
  | case4 a d t ha hd ih =>
    unfold collapseWS at h
    rw [if_pos ha, if_pos hd] at h
    rcases ih h with h1 | ⟨h1, h2⟩
    · left; exact h1
    · right; exact ⟨by simp [h1], h2⟩
  | case5 a d t ha hnd ih =>
    unfold collapseWS at h
    rw [if_pos ha, if_neg hnd] at h
    rcases List.mem_cons.mp h with h1 | h1
    · left; exact h1
    · rcases ih h1 with h2 | ⟨h2, h3⟩
      · left; exact h2
      · right; exact ⟨by simp [h2], h3⟩
  | case6 a d t hna ih =>
    unfold collapseWS at h
    rw [if_neg hna] at h
    rcases List.mem_cons.mp h with h1 | h1
    · subst h1
      right
      exact ⟨by simp, by simpa using hna⟩
    · rcases ih h1 with h2 | ⟨h2, h3⟩
      · left; exact h2
      · right; exact ⟨by simp [h2], h3⟩

theorem collapseWS_eq_self (l : List Char) (h : collapsed l = true) : collapseWS l = l := by
  induction l using collapseWS.induct with
  | case1 => rfl
  | case2 a ha =>
    unfold collapsed at h
    simp [ha] at h
    unfold collapseWS
    rw [if_pos ha, h]
  | case3 a hna =>
    unfold collapseWS
    rw [if_neg hna]
  | case4 a d t ha hd ih =>
    unfold collapsed at h
    simp [ha, hd] at h
  | case5 a d t ha hnd ih =>
    unfold collapsed at h
    rw [Bool.and_eq_true] at h
    obtain ⟨h1, h2⟩ := h
    have ha2 : a = ' ' := by
      simp [ha] at h1
      exact h1.1
    unfold collapseWS
    rw [if_pos ha, if_neg hnd, ih h2, ha2]
  | case6 a d t hna ih =>
    unfold collapsed at h
    simp [hna] at h
    unfold collapseWS
    rw [if_neg hna, ih h]

theorem collapsed_cons (c : Char) (w : List Char)
    (hc : isSpace c = false ∨ (c = ' ' ∧ ∀ e, w.head? = some e → isSpace e = false))
    (hw : collapsed w = true) : collapsed (c :: w) = true := by
  cases w with
  | nil =>
    unfold collapsed
    rcases hc with hc | ⟨hc, _⟩
    · simp [hc]
    · simp [hc]
  | cons d u =>
    unfold collapsed
    rcases hc with hc | ⟨hc, he⟩
    · simp [hc, hw]
    · have hd : isSpace d = false := he d rfl
      simp [hc, hd, hw]

theorem collapsed_collapseWS (l : List Char) : collapsed (collapseWS l) = true := by
  induction l using collapseWS.induct with
  | case1 => rfl
  | case2 a ha =>
    unfold collapseWS
    rw [if_pos ha]
    rfl
  | case3 a hna =>
    unfold collapseWS
    rw [if_neg hna]
    unfold collapsed
    simp [hna]
  | case4 a d t ha hd ih =>
    unfold collapseWS
    rw [if_pos ha, if_pos hd]
    exact ih
  | case5 a d t ha hnd ih =>
    unfold collapseWS
    rw [if_pos ha, if_neg hnd]
    apply collapsed_cons _ _ _ ih
    right
    refine ⟨rfl, fun e he => ?_⟩
    have := collapseWS_head? (d :: t) d rfl (by simpa using hnd)
    rw [this] at he
    cases he
    simpa using hnd
  | case6 a d t hna ih =>
    unfold collapseWS
    rw [if_neg hna]
    apply collapsed_cons _ _ _ ih
    by_cases hd : isSpace d = true
    · -- the next emitted character is a space only if it is the single quote space
      cases t with
      | nil =>
        left
        simpa using hna
      | cons e u =>
        left
        simpa using hna
    · left
      simpa using hna

/-! ### Facts about `normalize_text` -/

theorem normalize_head?_false (s : String) (c : Char)
    (h : (normalize_text s).data.head? = some c) : isSpace c = false := by
  unfold normalize_text at h
  simp only at h
  cases hm : (stripList s.data).map Char.toLower with
  | nil =>
    rw [hm] at h
    simp [collapseWS] at h
  | cons a t =>
    have ha : isSpace a = false := by
      have : ((stripList s.data).map Char.toLower).head? = some a := by rw [hm]; rfl
      rw [List.head?_map] at this
      cases hs : (stripList s.data).head? with
      | none => rw [hs] at this; simp at this
      | some b =>
        rw [hs] at this
        simp at this
        rw [← this, isSpace_toLower]
        exact stripList_head?_false s.data b hs
    rw [hm, collapseWS_head? (a :: t) a rfl ha] at h
    cases h
    exact ha

theorem normalize_getLast?_false (s : String) (c : Char)
    (h : (normalize_text s).data.getLast? = some c) : isSpace c = false := by
  unfold normalize_text at h
  simp only at h
  cases hm : ((stripList s.data).map Char.toLower).getLast? with
  | none =>
    have : (stripList s.data).map Char.toLower = [] := by
      cases hx : (stripList s.data).map Char.toLower with
      | nil => rfl
      | cons a t =>
        rw [hx] at hm
        rcases List.getLast?_eq_getLast (a :: t) (by simp) with h2
        rw [h2] at hm
        simp at hm
    rw [this] at h
    simp [collapseWS] at h
  | some b =>
    have hb : isSpace b = false := by
      rw [List.getLast?_map] at hm
      cases hs : (stripList s.data).getLast? with
      | none => rw [hs] at hm; simp at hm
      | some e =>
        rw [hs] at hm
        simp at hm
        rw [← hm, isSpace_toLower]
        exact stripList_getLast?_false s.data e hs
    rw [collapseWS_getLast? _ b hm hb] at h
    cases h
    exact hb

theorem normalize_mem (s : String) (c : Char) (h : c ∈ (normalize_text s).data) :
    c = ' ' ∨ (isSpace c = false ∧ ∃ a, c = Char.toLower a) := by
  unfold normalize_text at h
  simp only at h
  rcases mem_collapseWS _ c h with h1 | ⟨h1, h2⟩
  · left; exact h1
  · right
    refine ⟨h2, ?_⟩
    rcases List.mem_map.mp h1 with ⟨a, _, ha⟩
    exact ⟨a, ha.symm⟩

theorem normalize_no_linebreak (s : String) (c : Char)
    (h : c ∈ (normalize_text s).data) : isLineBreak c = false := by
  rcases normalize_mem s c h with h1 | ⟨h1, _⟩
  · subst h1; rfl
  · cases hb : isLineBreak c with
    | false => rfl
    | true => rw [isSpace_of_isLineBreak c hb] at h1; cases h1

theorem normalize_toLower_fixed (s : String) (c : Char)
    (h : c ∈ (normalize_text s).data) : Char.toLower c = c := by
  rcases normalize_mem s c h with h1 | ⟨_, a, h2⟩
  · subst h1
    rfl
  · rw [h2, toLower_idem]

theorem map_id_of_fixed (f : Char → Char) (m : List Char) (h : ∀ c ∈ m, f c = c) :
    m.map f = m := by
  induction m with
  | nil => rfl
  | cons a t ih =>
    simp only [List.map_cons]
    rw [h a (by simp), ih (fun c hc => h c (by simp [hc]))]

/-- `normalize_text` is idempotent. -/
theorem normalize_text_idem (s : String) :
    normalize_text (normalize_text s) = normalize_text s := by
  have hstrip : stripList (normalize_text s).data = (normalize_text s).data :=
    stripList_eq_self _ (normalize_head?_false s) (normalize_getLast?_false s)
  have hmap : ((normalize_text s).data).map Char.toLower = (normalize_text s).data :=
    map_id_of_fixed _ _ (normalize_toLower_fixed s)
  have hcoll : collapseWS (normalize_text s).data = (normalize_text s).data := by
    apply collapseWS_eq_self
    unfold normalize_text
    exact collapsed_collapseWS _
  show (⟨collapseWS ((stripList (normalize_text s).data).map Char.toLower)⟩ : String)
      = normalize_text s
  rw [hstrip, hmap, hcoll]

/-! ### splitlines, find? and substring bridges -/

theorem splitlinesAux_no_break (l : List Char) (h : ∀ c ∈ l, isLineBreak c = false) :
    ∀ acc : List Char,
      splitlinesAux l acc = if l = [] ∧ acc = [] then [] else [acc.reverse ++ l] := by
  induction l with
  | nil =>
    intro acc
    by_cases ha : acc = []
    · simp [splitlinesAux, ha]
    · simp [splitlinesAux, ha]
  | cons a t ih =>
    intro acc
    have hna : isLineBreak a = false := h a (by simp)
    cases t with
    | nil =>
      unfold splitlinesAux
      rw [if_neg (by simp [hna]), if_neg (by simp)]
      simp
    | cons d u =>
      unfold splitlinesAux
      rw [if_neg (by simp [hna]), if_neg (by simp)]
      rw [ih (fun c hc => h c (by simp [hc])) (a :: acc)]
      rw [if_neg (by simp)]
      simp

theorem string_ne_empty_data (s : String) (h : s ≠ "") : s.data ≠ [] := by
  intro he
  apply h
  cases s with
  | mk d =>
    have hd : d = [] := he
    subst hd
    rfl

theorem splitlines_normalize (raw : String) (h : normalize_text raw ≠ "") :
    splitlinesAux (normalize_text raw).data [] = [(normalize_text raw).data] := by
  rw [splitlinesAux_no_break _ (normalize_no_linebreak raw) []]
  rw [if_neg (by simp [string_ne_empty_data _ h])]
  simp

theorem stripList_normalize (raw : String) :
    stripList (normalize_text raw).data = (normalize_text raw).data :=
  stripList_eq_self _ (normalize_head?_false raw) (normalize_getLast?_false raw)

theorem find?_eq_some_of_earliest (p : String → Bool) (pre post : List String) (cat : String)
    (hcat : p cat = true) (hpre : ∀ c ∈ pre, p c = false) :
    (pre ++ cat :: post).find? p = some cat := by
  induction pre with
  | nil => simp [List.find?_cons_of_pos, hcat]
  | cons a t ih =>
    rw [List.cons_append, List.find?_cons_of_neg]
    · exact ih (fun c hc => hpre c (by simp [hc]))
    · simp [hpre a (by simp)]

theorem listContains_iff (hay needle : List Char) :
    listContains hay needle = true ↔ occursIn needle hay := by
  induction hay with
  | nil =>
    unfold listContains
    simp only [Bool.or_false]
    rw [ List.isPrefixOf_iff_prefix]
    constructor
    · rintro ⟨u, hu⟩
      exact ⟨[], u, by simp [← hu]⟩
    · rintro ⟨a, b, hab⟩
      obtain ⟨han, hb⟩ := List.append_eq_nil.mp hab.symm
      obtain ⟨ha, hn⟩ := List.append_eq_nil.mp han
      exact ⟨[], by simp [hn]⟩
  | cons x t ih =>
    unfold listContains
    rw [Bool.or_eq_true, List.isPrefixOf_iff_prefix, ih]
    constructor
    · rintro (⟨u, hu⟩ | ⟨a, b, hab⟩)
      · exact ⟨[], u, by simp [← hu]⟩
      · exact ⟨x :: a, b, by simp [hab]⟩
    · rintro ⟨a, b, hab⟩
      cases a with
      | nil =>
        left
        exact ⟨b, by simpa using hab.symm⟩
      | cons y a2 =>
        right
        simp only [List.cons_append, List.cons.injEq] at hab
        exact ⟨a2, b, hab.2⟩

/-- The behavior of `parse_category` on responses whose normalization is
non-empty: exact match of the whole normalized response (the single line),
else the first substring hit, else the fallback. -/
theorem parse_category_char (raw : String) (h : normalize_text raw ≠ "") :
    parse_category raw =
      some (if normalize_text raw ∈ ALLOWED_CATEGORIES then normalize_text raw
        else
          match ALLOWED_CATEGORIES.find?
              (fun cat => listContains (normalize_text raw).data cat.data) with
          | some cat => cat
          | none => "customer service") := by
  have he : (⟨(normalize_text raw).data⟩ : String) = normalize_text raw := rfl
  unfold parse_category
  simp only [splitlines_normalize raw h, stripList_normalize raw, he]
  by_cases hmem : normalize_text raw ∈ ALLOWED_CATEGORIES
  · rw [if_pos hmem, if_pos hmem]
  · rw [if_neg hmem, if_neg hmem]
    cases hf : ALLOWED_CATEGORIES.find?
        (fun cat => listContains (normalize_text raw).data cat.data) with
    | some cat => rfl
    | none => rfl

theorem not_occursIn_of_false (hay needle : List Char) (h : listContains hay needle = false) :
    ¬ occursIn needle hay := fun hocc => by
  rw [(listContains_iff hay needle).mpr hocc] at h
  cases h

theorem parse_category_mem (raw : String) (c : String) (h : parse_category raw = some c) :
    c ∈ ALLOWED_CATEGORIES := by
  unfold parse_category at h
  simp only at h
  cases hs : splitlinesAux (normalize_text raw).data [] with
  | nil => rw [hs] at h; cases h
  | cons l0 ls =>
    rw [hs] at h
    simp only at h
    by_cases hmem : (⟨stripList l0⟩ : String) ∈ ALLOWED_CATEGORIES
    · rw [if_pos hmem] at h
      cases h
      exact hmem
    · rw [if_neg hmem] at h
      cases hf : ALLOWED_CATEGORIES.find?
          (fun cat => listContains (normalize_text raw).data cat.data) with
      | some cat =>
        rw [hf] at h
        cases h
        exact List.mem_of_find?_eq_some hf
      | none =>
        rw [hf] at h
        cases h
        decide

/-! ### Claim theorems -/

/-- Claim C1, counterexample: on the empty string the normalized response
is empty, `splitlines` returns no lines, and indexing line zero raises an
`IndexError` (modelled as `none`), so `parse_category` is not total. -/
theorem parse_category_empty_input_raises : parse_category "" = none := by decide

/-- Claim C1 as amended: for every raw response whose normalization is
non-empty (it contains at least one non-whitespace character),
`parse_category` returns a value, and that value is an allowed category;
on empty or whitespace-only input it raises instead. -/
theorem parse_category_total_on_nonempty (raw : String) (h : normalize_text raw ≠ "") :
    ∃ c, parse_category raw = some c ∧ c ∈ ALLOWED_CATEGORIES := by
  rw [parse_category_char raw h]
  by_cases hmem : normalize_text raw ∈ ALLOWED_CATEGORIES
  · exact ⟨normalize_text raw, by rw [if_pos hmem], hmem⟩
  · rw [if_neg hmem]
    cases hf : ALLOWED_CATEGORIES.find?
        (fun cat => listContains (normalize_text raw).data cat.data) with
    | some cat => exact ⟨cat, rfl, List.mem_of_find?_eq_some hf⟩
    | none => exact ⟨"customer service", rfl, by decide⟩

theorem parse_category_total_on_nonempty_witness :
    normalize_text "hello world" ≠ "" ∧
      ∃ c, parse_category "hello world" = some c ∧ c ∈ ALLOWED_CATEGORIES :=
  ⟨by decide, parse_category_total_on_nonempty "hello world" (by decide)⟩

/-- Claim C2: whenever the trimmed first line of the normalized response
exactly equals an allowed category, `parse_category` returns that exact
category, whatever else follows the first line. -/
theorem parse_category_first_line_exact (raw : String) (l0 : List Char) (rest : List (List Char))
    (h1 : splitlinesAux (normalize_text raw).data [] = l0 :: rest)
    (h2 : (⟨stripList l0⟩ : String) ∈ ALLOWED_CATEGORIES) :
    parse_category raw = some ⟨stripList l0⟩ := by
  unfold parse_category
  simp only [h1]
  rw [if_pos h2]

theorem parse_category_first_line_exact_witness :
    splitlinesAux (normalize_text "Change\nPIN").data [] = ["change pin".data] ∧
      (⟨stripList "change pin".data⟩ : String) ∈ ALLOWED_CATEGORIES ∧
      parse_category "Change\nPIN" = some ⟨stripList "change pin".data⟩ :=
  ⟨by decide, by decide,
    parse_category_first_line_exact "Change\nPIN" "change pin".data [] (by decide) (by decide)⟩

/-- Claim C3: when the trimmed first line is not exactly an allowed
category, `parse_category` returns the earliest category in the allowed
list whose text occurs as a substring anywhere in the full normalized
response, and returns the fallback category when no category text occurs. -/
theorem parse_category_substring_priority (raw : String) (l0 : List Char)
    (rest : List (List Char))
    (h1 : splitlinesAux (normalize_text raw).data [] = l0 :: rest)
    (h2 : (⟨stripList l0⟩ : String) ∉ ALLOWED_CATEGORIES) :
    (∀ pre cat post, ALLOWED_CATEGORIES = pre ++ cat :: post →
        occursIn cat.data (normalize_text raw).data →
        (∀ c ∈ pre, ¬ occursIn c.data (normalize_text raw).data) →
        parse_category raw = some cat) ∧
      ((∀ c ∈ ALLOWED_CATEGORIES, ¬ occursIn c.data (normalize_text raw).data) →
        parse_category raw = some "customer service") := by
  have hmain : parse_category raw =
      (match ALLOWED_CATEGORIES.find?
          (fun cat => listContains (normalize_text raw).data cat.data) with
       | some cat => some cat
       | none => some "customer service") := by
    unfold parse_category
    simp only [h1]
    rw [if_neg h2]
  constructor
  · intro pre cat post hdecomp hocc hpre
    rw [hmain, hdecomp,
      find?_eq_some_of_earliest _ pre post cat
        ((listContains_iff _ _).mpr hocc)
        (fun c hc => by
          cases hb : listContains (normalize_text raw).data c.data with
          | false => rfl
          | true => exact absurd ((listContains_iff _ _).mp hb) (hpre c hc))]
  · intro hnone
    rw [hmain, List.find?_eq_none.mpr (fun c hc hb =>
      absurd ((listContains_iff _ _).mp hb) (hnone c hc))]

theorem parse_category_substring_priority_witness :
    parse_category "I think: Charge Dispute!" = some "charge dispute" := by
  have h := parse_category_substring_priority "I think: Charge Dispute!"
    "i think: charge dispute!".data [] (by decide) (by decide)
  exact h.1
    ["card arrival", "change pin", "exchange rate", "country support", "cancel transfer"]
    "charge dispute" ["customer service"] (by decide)
    ((listContains_iff _ _).mp (by decide))
    (by
      intro c hc
      fin_cases hc <;> exact not_occursIn_of_false _ _ (by decide))

/-- Claim C4: inquiries whose normalization has at most two tokens or is a
greeting phrase are classified as the fallback category, for every
behavior of the completion service (no call is needed). -/
theorem classify_intent_shortcut_no_call (inquiry : String)
    (h : (splitTokens (normalize_text inquiry).data).length ≤ 2 ∨
      normalize_text inquiry ∈ GREETINGS) :
    ∀ svc : String → Except Unit String, classify_intent svc inquiry = "customer service" := by
  intro svc
  unfold classify_intent
  simp only
  rw [if_pos h]

theorem classify_intent_shortcut_no_call_witness :
    ((splitTokens (normalize_text "hi").data).length ≤ 2 ∨ normalize_text "hi" ∈ GREETINGS) ∧
      classify_intent (fun _ => Except.ok "card arrival") "hi" = "customer service" :=
  ⟨by decide,
    classify_intent_shortcut_no_call "hi" (by decide) (fun _ => Except.ok "card arrival")⟩

/-- Claim C5: for inquiries that reach the completion call (the shortcut
guard is false), an error from the call is caught and the fallback
category is returned. -/
theorem classify_intent_error_fallback (svc : String → Except Unit String) (inquiry : String)
    (hguard : ¬ ((splitTokens (normalize_text inquiry).data).length ≤ 2 ∨
      normalize_text inquiry ∈ GREETINGS))
    (herr : svc (classifyPromptFor inquiry) = Except.error ()) :
    classify_intent svc inquiry = "customer service" := by
  unfold classify_intent
  simp only
  rw [if_neg hguard, herr]

theorem classify_intent_error_fallback_witness :
    ¬ ((splitTokens (normalize_text "I was charged twice by a merchant.").data).length ≤ 2 ∨
        normalize_text "I was charged twice by a merchant." ∈ GREETINGS) ∧
      classify_intent (fun _ => Except.error ()) "I was charged twice by a merchant."
        = "customer service" :=
  ⟨by decide,
    classify_intent_error_fallback (fun _ => Except.error ())
      "I was charged twice by a merchant." (by decide) rfl⟩

/-- Claim C6: if the completion call during composition raises, the raw
guidance string for the category is returned unmodified as the answer. -/
theorem compose_error_returns_guidance (svc : String → Except Unit String)
    (cat inquiry : String)
    (h : svc (composePromptFor (kbGet cat) inquiry) = Except.error ()) :
    composeAnswer svc cat inquiry = kbGet cat := by
  unfold composeAnswer
  simp only
  rw [h]

theorem compose_error_returns_guidance_witness :
    (fun _ : String => (Except.error () : Except Unit String))
        (composePromptFor (kbGet "customer service") "I was charged twice by a merchant.")
        = Except.error () ∧
      composeAnswer (fun _ => Except.error ()) "customer service"
          "I was charged twice by a merchant."
        = kbGet "customer service" :=
  ⟨rfl,
    compose_error_returns_guidance (fun _ => Except.error ()) "customer service"
      "I was charged twice by a merchant." rfl⟩

/-- Claim C7: `normalize_text` is idempotent, and it collapses whitespace
runs, trims, and lower-cases, as on the concrete example. -/
theorem normalize_idempotent_and_example :
    (∀ x : String, normalize_text (normalize_text x) = normalize_text x) ∧
      normalize_text "  HI   there" = "hi there" :=
  ⟨normalize_text_idem, by decide⟩

/-- Claim C8: submitting an empty or whitespace-only message leaves the
transcript unchanged, whatever the transcript, the service, and the send
flag. -/
theorem send_empty_inquiry_noop (svc : String → Except Unit String) (history : List Turn)
    (send : Bool) (msg : String) (h : (⟨stripList msg.data⟩ : String) = "") :
    sendHandler svc history send msg = history := by
  unfold sendHandler
  rw [if_neg (by simp [h])]

theorem send_empty_inquiry_noop_witness :
    ((⟨stripList "   ".data⟩ : String) = "") ∧
      sendHandler (fun _ => Except.error ()) [⟨"user", "card arrival", none⟩] true "   "
        = [⟨"user", "card arrival", none⟩] :=
  ⟨by decide,
    send_empty_inquiry_noop (fun _ => Except.error ())
      [⟨"user", "card arrival", none⟩] true "   " (by decide)⟩

/-- Claim C9: whatever the external service returns or raises, the value
of `classify_intent` is always one of the seven allowed categories. -/
theorem classify_intent_mem_allowed (svc : String → Except Unit String) (inquiry : String) :
    classify_intent svc inquiry ∈ ALLOWED_CATEGORIES := by
  unfold classify_intent
  simp only
  by_cases hg : (splitTokens (normalize_text inquiry).data).length ≤ 2 ∨
      normalize_text inquiry ∈ GREETINGS
  · rw [if_pos hg]; decide
  · rw [if_neg hg]
    cases hs : svc (classifyPromptFor inquiry) with
    | error e =>
      show ("customer service" : String) ∈ ALLOWED_CATEGORIES
      decide
    | ok raw =>
      show (match parse_category raw with
            | some c => c
            | none => "customer service") ∈ ALLOWED_CATEGORIES
      cases hp : parse_category raw with
      | none =>
        show ("customer service" : String) ∈ ALLOWED_CATEGORIES
        decide
      | some c =>
        show c ∈ ALLOWED_CATEGORIES
        exact parse_category_mem raw c hp

/-- Claim C10, counterexample: the whitespace-only response " " is a
non-empty raw response on which `parse_category` raises (returns `none`)
while the simpler function returns the fallback, so the two are not
extensionally equal on all non-empty inputs. -/
theorem parse_category_not_simple_match_on_blank :
    parse_category " " = none ∧ specSimpleMatch " " = "customer service" := by
  constructor <;> decide

/-- Claim C10 as amended: for every raw response whose normalization is
non-empty, `parse_category` agrees with the simpler function that checks
the whole normalized response for an exact match and then for the first
substring hit. -/
theorem parse_category_refines_simple_match (raw : String) (h : normalize_text raw ≠ "") :
    parse_category raw = some (specSimpleMatch raw) := by
  rw [parse_category_char raw h]
  rfl

theorem parse_category_refines_simple_match_witness :
    normalize_text "sounds like exchange rate to me" ≠ "" ∧
      parse_category "sounds like exchange rate to me"
        = some (specSimpleMatch "sounds like exchange rate to me") :=
  ⟨by decide, parse_category_refines_simple_match "sounds like exchange rate to me" (by decide)⟩

example : normalize_text "  HI   there" = "hi there" := by decide
example : parse_category "" = none := by decide
example : parse_category "Change Pin\n" = some "change pin" := by decide
example : parse_category "i think charge dispute fits" = some "charge dispute" := by decide
example : parse_category "no idea" = some "customer service" := by decide
example : splitTokens "i was charged twice by a merchant".data = splitTokens "a b c d e f g".data → True := fun _ => trivial
example : (splitTokens (normalize_text "hi").data).length = 1 := by decide
